import Mathlib

/-!
Verification of `cleanup.py` (part-8, "Send an Event", eventNames): a tool that
extracts `#define` constant records from a C header and resolves simple
additive or subtractive expressions by fixed-point iteration.

The Python source is shallowly embedded below.  Strings are modelled with their
ASCII semantics (`str.strip` and `re`'s `\s` as the six ASCII whitespace
characters, `str.isdigit` and `\d` as `0`-`9`); all inputs in this domain are
ASCII.  Python's unbounded `int` is modelled by `Int`.  The generator
`resolve_dependencies`, which yields pairs and prints unresolved records to
stderr, is modelled as a function returning the yielded pairs, the error
records, the final symbol table (a cons-first association list, so the most
recent assignment wins on lookup, like a `dict`), and the number of passes the
loop executed.  The `while` loop strictly shrinks its working set on every
iteration it continues, so running it with `length + 1` fuel is exact; the
stabilization theorem for claim C7 shows extra fuel never changes the result.
-/

namespace CleanupPy

/-- Python whitespace (`str.strip`, `str.split(None)`, regex `\s`), ASCII part:
space, tab, newline, carriage return, vertical tab, form feed. -/
def isPySpace (c : Char) : Bool :=
  c == ' ' || c == '\t' || c == '\n' || c == '\r' || c == '\x0b' || c == '\x0c'

/-- Python `str.strip()`: drop leading and trailing whitespace. -/
def pyStrip (l : List Char) : List Char :=
  ((l.dropWhile isPySpace).reverse.dropWhile isPySpace).reverse

/-- `re.sub(r'\s+', ' ', ·)`: replace every run of whitespace by one space.
The flag records whether the previous character was part of a whitespace run. -/
def collapse : Bool → List Char → List Char
  | _, [] => []
  | prevSpace, c :: rest =>
    if isPySpace c then
      if prevSpace then collapse true rest
      else ' ' :: collapse true rest
    else c :: collapse false rest

/-- Whitespace normalization in `evaluate`: `re.sub(r'\s+', ' ', expr.strip())`. -/
def normalizeExpr (s : String) : List Char :=
  collapse false (pyStrip s.data)

/-- Value of one hex digit, per the regex class `[0-9a-fA-F]`. -/
def hexVal? (c : Char) : Option Nat :=
  if '0' ≤ c ∧ c ≤ '9' then some (c.toNat - '0'.toNat)
  else if 'a' ≤ c ∧ c ≤ 'f' then some (c.toNat - 'a'.toNat + 10)
  else if 'A' ≤ c ∧ c ≤ 'F' then some (c.toNat - 'A'.toNat + 10)
  else none

/-- A character of the regex class `[0-9a-fA-F]`. -/
def isHexDigit (c : Char) : Bool :=
  (hexVal? c).isSome

/-- Numeric value of a hex digit (0 when the character is not a hex digit). -/
def hexCharVal (c : Char) : Nat :=
  (hexVal? c).getD 0

/-- Specification-side base-16 value of a list of hex digits. -/
def hexDigitsVal (l : List Char) : Nat :=
  l.foldl (fun a c => 16 * a + hexCharVal c) 0

/-- The literal regex of `evaluate` and `evaluate_operand`:
`^(0x[0-9a-fA-F]+|\d+)$`.  Note the `0x` alternative is lowercase only. -/
def isNumberTok (l : List Char) : Bool :=
  (match l with
   | '0' :: 'x' :: rest => (!rest.isEmpty) && rest.all isHexDigit
   | _ => false)
  || ((!l.isEmpty) && l.all Char.isDigit)

/-- Digits consumed by Python `int(s, 16)` after the `0x`/`0X` prefix: hex
digits with single underscores allowed after the prefix or between digits. -/
def pyHexGo (acc : Nat) : List Char → Option Nat
  | [] => some acc
  | c :: rest =>
    if c = '_' then
      match rest with
      | [] => none
      | c2 :: rest2 =>
        match hexVal? c2 with
        | some d => pyHexGo (16 * acc + d) rest2
        | none => none
    else
      match hexVal? c with
      | some d => pyHexGo (16 * acc + d) rest
      | none => none

/-- Python `int(s, 16)` applied to the part of `s` after its `0x`/`0X` prefix
(the strings reaching it in `parse_c_value` always carry the prefix and no
sign or surrounding whitespace). -/
def pyIntHex (l : List Char) : Option Int :=
  if l.isEmpty then none else (pyHexGo 0 l).map Int.ofNat

/-- Base-10 value of a list of decimal digits (Python `int(s)` on a string of
digits). -/
def decVal (l : List Char) : Nat :=
  l.foldl (fun a c => 10 * a + (c.toNat - '0'.toNat)) 0

/-- `parse_c_value`: strip, then parse `0x`/`0X`-prefixed strings base 16 and
pure digit strings base 10; anything else raises `ValueError` (`none`). -/
def parse_c_value (value_str : String) : Option Int :=
  let t := pyStrip value_str.data
  if List.isPrefixOf ['0', 'x'] t || List.isPrefixOf ['0', 'X'] t then
    pyIntHex (t.drop 2)
  else if (!t.isEmpty) && t.all Char.isDigit then
    some (Int.ofNat (decVal t))
  else
    none

/-- The parenthesized binary patterns of `evaluate`:
`^\(\s*([^+\-]+?)\s*OP\s*([^+\-]+?)\s*\)$` for `OP` being `+` (with `other`
`-`) or `-` (with `other` `+`).  The pattern matches exactly when the string
is wrapped in parentheses, the interior has exactly one occurrence of `op`,
no occurrence of `other`, and both sides of that occurrence are nonempty.
The returned operands are the stripped sides, which is what the Python code
obtains from `m.group(i).strip()`. -/
def matchParen (op other : Char) (l : List Char) : Option (List Char × List Char) :=
  if l.head? == some '(' && l.getLast? == some ')' then
    let interior := (l.drop 1).dropLast
    if interior.count op == 1 && interior.count other == 0 then
      let lft := interior.takeWhile (fun c => c != op)
      let rgt := (interior.dropWhile (fun c => c != op)).drop 1
      if lft.isEmpty || rgt.isEmpty then none
      else some (pyStrip lft, pyStrip rgt)
    else none
  else none

/-- `evaluate_operand`: strip, then literal or already-defined symbol;
otherwise `ValueError` (`none`). -/
def evaluate_operand (operand : String) (symbols : List (String × Int)) : Option Int :=
  let o := pyStrip operand.data
  if isNumberTok o then parse_c_value (String.mk o)
  else List.lookup (String.mk o) symbols

/-- `evaluate`: normalize whitespace; literal, then whole-expression symbol
lookup, then `(left + right)`, then `(left - right)`; otherwise `ValueError`
(`none`). -/
def evaluate (expr : String) (symbols : List (String × Int)) : Option Int :=
  let e := normalizeExpr expr
  if isNumberTok e then parse_c_value (String.mk e)
  else
    match List.lookup (String.mk e) symbols with
    | some v => some v
    | none =>
      match matchParen '+' '-' e with
      | some (lft, rgt) =>
        match evaluate_operand (String.mk lft) symbols,
              evaluate_operand (String.mk rgt) symbols with
        | some a, some b => some (a + b)
        | _, _ => none
      | none =>
        match matchParen '-' '+' e with
        | some (lft, rgt) =>
          match evaluate_operand (String.mk lft) symbols,
                evaluate_operand (String.mk rgt) symbols with
          | some a, some b => some (a - b)
          | _, _ => none
        | none => none

/-- Symbol-table keys an operand makes `evaluate_operand` consult: none for a
literal, otherwise the stripped operand itself. -/
def operandConsulted (o : List Char) : List String :=
  let t := pyStrip o
  if isNumberTok t then [] else [String.mk t]

/-- Symbol-table keys consulted by a successful run of `evaluate`: none for a
literal, the whole normalized expression when it is resolved by direct lookup,
and the non-literal operands of a parenthesized sum or difference. -/
def consulted (expr : String) (symbols : List (String × Int)) : List String :=
  let e := normalizeExpr expr
  if isNumberTok e then []
  else
    match List.lookup (String.mk e) symbols with
    | some _ => [String.mk e]
    | none =>
      match matchParen '+' '-' e with
      | some (lft, rgt) => operandConsulted lft ++ operandConsulted rgt
      | none =>
        match matchParen '-' '+' e with
        | some (lft, rgt) => operandConsulted lft ++ operandConsulted rgt
        | none => []

/-- Python `str.split(None, 2)` on an already-stripped line: split on runs of
whitespace into at most three parts, the third keeping its internal text. -/
def pySplit2 (l : List Char) : List (List Char) :=
  let l0 := l.dropWhile isPySpace
  if l0.isEmpty then []
  else
    let t1 := l0.takeWhile (fun c => !isPySpace c)
    let r1 := (l0.dropWhile (fun c => !isPySpace c)).dropWhile isPySpace
    if r1.isEmpty then [t1]
    else
      let t2 := r1.takeWhile (fun c => !isPySpace c)
      let r2 := (r1.dropWhile (fun c => !isPySpace c)).dropWhile isPySpace
      if r2.isEmpty then [t1, t2] else [t1, t2, r2]

/-- `re.sub(r'//.*$', '', ·)` on a single line: cut everything from the first
occurrence of `//` to the end. -/
def stripComment : List Char → List Char
  | [] => []
  | c :: rest =>
    if c = '/' ∧ rest.head? = some '/' then []
    else c :: stripComment rest

/-- The name filter of `extract_defines_from_header`. -/
def nameSelected (n : List Char) : Bool :=
  (n == "THIRD_PARTY_EVENT_ID_MIN".data)
  || List.isPrefixOf "EVT_".data n
  || List.isPrefixOf "CDU_EVT_OFFSET_".data n

/-- Body of the per-line loop of `extract_defines_from_header`: strip the
line, require the `#define` prefix, split into three parts, filter the name,
and store the comment-stripped, re-stripped remainder as the raw expression. -/
def extractLine (line : String) : Option (String × String) :=
  let t := pyStrip line.data
  if List.isPrefixOf "#define".data t then
    match pySplit2 t with
    | [_, n, rest] =>
      if nameSelected n then some (String.mk n, String.mk (pyStrip (stripComment rest)))
      else none
    | _ => none
  else none

/-- `extract_defines_from_header`, with the file given as its list of lines:
the qualifying records in input order. -/
def extract_defines_from_header (lines : List String) : List (String × String) :=
  lines.filterMap extractLine

/-- Result of one pass of the resolution loop: the symbol table after the
pass, the pairs yielded during the pass in order, and the records left for
the next pass in order. -/
structure PassResult where
  symbols : List (String × Int)
  yielded : List (String × Int)
  still : List (String × String)
deriving DecidableEq, Repr

/-- One pass of the loop body of `resolve_dependencies`: try each unresolved
record in order against the current table; on success assign and yield, on
`ValueError` carry the record to `still_unresolved`. -/
def runPass (symbols : List (String × Int)) : List (String × String) → PassResult
  | [] => ⟨symbols, [], []⟩
  | (n, e) :: rest =>
    match evaluate e symbols with
    | some v =>
      ⟨(runPass ((n, v) :: symbols) rest).symbols,
       (n, v) :: (runPass ((n, v) :: symbols) rest).yielded,
       (runPass ((n, v) :: symbols) rest).still⟩
    | none =>
      ⟨(runPass symbols rest).symbols,
       (runPass symbols rest).yielded,
       (n, e) :: (runPass symbols rest).still⟩

/-- Result of `resolve_dependencies`: the final symbol table, the yielded
`(name, value)` pairs in order, the records reported as unresolvable in
order, and the number of passes the loop ran. -/
structure ResolveResult where
  symbols : List (String × Int)
  output : List (String × Int)
  errors : List (String × String)
  passes : Nat
deriving DecidableEq, Repr

/-- The `while unresolved and len(unresolved) != resolved_count` loop, with
explicit fuel.  The loop continues only while a pass strictly shrank the
working set, so `length + 1` fuel is always enough (`resolveLoopFuel_stable`). -/
def resolveLoopFuel : Nat → List (String × Int) → List (String × String) → ResolveResult
  | 0, syms, unresolved => ⟨syms, [], unresolved, 0⟩
  | fuel + 1, syms, unresolved =>
    if unresolved = [] then ⟨syms, [], [], 0⟩
    else if (runPass syms unresolved).still.length = unresolved.length then
      ⟨(runPass syms unresolved).symbols, (runPass syms unresolved).yielded,
       (runPass syms unresolved).still, 1⟩
    else
      ⟨(resolveLoopFuel fuel (runPass syms unresolved).symbols (runPass syms unresolved).still).symbols,
       (runPass syms unresolved).yielded ++
         (resolveLoopFuel fuel (runPass syms unresolved).symbols (runPass syms unresolved).still).output,
       (resolveLoopFuel fuel (runPass syms unresolved).symbols (runPass syms unresolved).still).errors,
       (resolveLoopFuel fuel (runPass syms unresolved).symbols (runPass syms unresolved).still).passes + 1⟩

/-- `resolve_dependencies`: run the loop from an empty table on the full
input list. -/
def resolve_dependencies (defines : List (String × String)) : ResolveResult :=
  resolveLoopFuel (defines.length + 1) [] defines

/-- The line printed to stderr for one unresolved record:
`f"Error: Could not resolve {const_name} = {value_expr}"`. -/
def errorLine (r : String × String) : String :=
  "Error: Could not resolve " ++ r.1 ++ " = " ++ r.2

/-- The stderr report of `resolve_dependencies`, one line per record left
unresolved, in order. -/
def errorReport (defines : List (String × String)) : List String :=
  (resolve_dependencies defines).errors.map errorLine

/-! ### Basic bridge lemmas -/

theorem isPrefixOf_true_iff (a b : List Char) : List.isPrefixOf a b = true ↔ a <+: b := by
  induction a generalizing b with
  | nil => simp [List.isPrefixOf]
  | cons x xs ih =>
    cases b with
    | nil => simp [List.isPrefixOf]
    | cons y ys => simp [List.isPrefixOf, ih]

theorem lookup_isSome_mem (n : String) (l : List (String × Int)) :
    (List.lookup n l).isSome ↔ n ∈ l.map Prod.fst := by
  simp only [List.lookup_isSome_iff, beq_iff_eq, List.mem_map]
  constructor
  · rintro ⟨p, hp, rfl⟩; exact ⟨p, hp, rfl⟩
  · rintro ⟨p, hp, rfl⟩; exact ⟨p, hp, rfl⟩

theorem lookup_reverse_eq (n : String) (l : List (String × Int)) :
    List.lookup n l.reverse = ((l.filter (fun p => p.1 == n)).getLast?).map Prod.snd := by
  induction l with
  | nil => rfl
  | cons x t ih =>
    obtain ⟨k, v⟩ := x
    rw [List.reverse_cons, List.lookup_append, ih]
    rcases hft : t.filter (fun p => p.1 == n) with _ | ⟨q, qs⟩
    · by_cases hk : k = n
      · subst hk
        simp [List.filter_cons, hft, List.lookup_cons]
      · have hnk : (n == k) = false := beq_eq_false_iff_ne.mpr (Ne.symm hk)
        simp [List.filter_cons, hft, List.lookup_cons, hk, hnk]
    · by_cases hk : k = n
      · subst hk
        simp [List.filter_cons, hft, List.getLast?_cons, List.getLastD_cons, Option.or]
      · simp [List.filter_cons, hft, hk, List.getLast?_cons, Option.or]

/-! ### Equation lemmas for one pass -/

theorem runPass_nil (symbols : List (String × Int)) : runPass symbols [] = ⟨symbols, [], []⟩ :=
  rfl

theorem runPass_cons_some {symbols : List (String × Int)} {n e v} {rest : List (String × String)}
    (h : evaluate e symbols = some v) :
    runPass symbols ((n, e) :: rest) =
      ⟨(runPass ((n, v) :: symbols) rest).symbols,
       (n, v) :: (runPass ((n, v) :: symbols) rest).yielded,
       (runPass ((n, v) :: symbols) rest).still⟩ := by
  simp [runPass, h]

theorem runPass_cons_none {symbols : List (String × Int)} {n e} {rest : List (String × String)}
    (h : evaluate e symbols = none) :
    runPass symbols ((n, e) :: rest) =
      ⟨(runPass symbols rest).symbols,
       (runPass symbols rest).yielded,
       (n, e) :: (runPass symbols rest).still⟩ := by
  simp [runPass, h]

/-! ### Structural facts about one pass -/

theorem runPass_length (symbols : List (String × Int)) (u : List (String × String)) :
    (runPass symbols u).yielded.length + (runPass symbols u).still.length = u.length := by
  induction u generalizing symbols with
  | nil => rfl
  | cons r rest ih =>
    obtain ⟨n, e⟩ := r
    rcases h : evaluate e symbols with _ | v
    · rw [runPass_cons_none h]
      have := ih symbols
      simp only [List.length_cons]
      omega
    · rw [runPass_cons_some h]
      have := ih ((n, v) :: symbols)
      simp only [List.length_cons]
      omega

theorem runPass_symbols (symbols : List (String × Int)) (u : List (String × String)) :
    (runPass symbols u).symbols = (runPass symbols u).yielded.reverse ++ symbols := by
  induction u generalizing symbols with
  | nil => rfl
  | cons r rest ih =>
    obtain ⟨n, e⟩ := r
    rcases h : evaluate e symbols with _ | v
    · rw [runPass_cons_none h]
      exact ih symbols
    · rw [runPass_cons_some h]
      have := ih ((n, v) :: symbols)
      simp only [this, List.reverse_cons, List.append_assoc, List.cons_append, List.nil_append]

theorem runPass_still_subset (symbols : List (String × Int)) (u : List (String × String)) :
    ∀ r ∈ (runPass symbols u).still, r ∈ u := by
  induction u generalizing symbols with
  | nil => intro r hr; exact absurd hr (by simp [runPass_nil])
  | cons x rest ih =>
    obtain ⟨n, e⟩ := x
    intro r hr
    rcases h : evaluate e symbols with _ | v
    · rw [runPass_cons_none h] at hr
      rcases List.mem_cons.mp hr with rfl | hr'
      · exact List.mem_cons_self _ _
      · exact List.mem_cons_of_mem _ (ih symbols r hr')
    · rw [runPass_cons_some h] at hr
      exact List.mem_cons_of_mem _ (ih ((n, v) :: symbols) r hr)

theorem runPass_perm (symbols : List (String × Int)) (u : List (String × String)) :
    ((runPass symbols u).yielded.map Prod.fst ++ (runPass symbols u).still.map Prod.fst).Perm
      (u.map Prod.fst) := by
  induction u generalizing symbols with
  | nil => rfl
  | cons x rest ih =>
    obtain ⟨n, e⟩ := x
    rcases h : evaluate e symbols with _ | v
    · rw [runPass_cons_none h]
      simp only [List.map_cons, List.map]
      refine List.Perm.trans (List.perm_append_comm) ?_
      simp only [List.cons_append]
      exact List.Perm.cons n (List.Perm.trans (List.perm_append_comm) (ih symbols))
    · rw [runPass_cons_some h]
      simp only [List.map_cons, List.cons_append, List.map]
      exact List.Perm.cons n (ih ((n, v) :: symbols))

theorem runPass_sound (u : List (String × String)) :
    ∀ (symbols : List (String × Int)) (i : Nat) (n : String) (v : Int),
      ((runPass symbols u).yielded)[i]? = some (n, v) →
      ∃ e, (n, e) ∈ u ∧
        evaluate e (((runPass symbols u).yielded.take i).reverse ++ symbols) = some v := by
  induction u with
  | nil => intro symbols i n v h; simp [runPass_nil] at h
  | cons x rest ih =>
    obtain ⟨m, ex⟩ := x
    intro symbols i n v h
    rcases he : evaluate ex symbols with _ | w
    · rw [runPass_cons_none he] at h ⊢
      obtain ⟨e, hmem, hev⟩ := ih symbols i n v h
      exact ⟨e, List.mem_cons_of_mem _ hmem, hev⟩
    · rw [runPass_cons_some he] at h ⊢
      cases i with
      | zero =>
        simp only [List.getElem?_cons_zero, Option.some.injEq] at h
        rw [Prod.mk.injEq] at h
        obtain ⟨rfl, rfl⟩ := h
        exact ⟨ex, List.mem_cons_self _ _, by simpa using he⟩
      | succ j =>
        simp only [List.getElem?_cons_succ] at h
        obtain ⟨e, hmem, hev⟩ := ih ((m, w) :: symbols) j n v h
        refine ⟨e, List.mem_cons_of_mem _ hmem, ?_⟩
        simpa [List.take_succ_cons, List.reverse_cons, List.append_assoc] using hev

theorem runPass_stall (symbols : List (String × Int)) (u : List (String × String))
    (h : (runPass symbols u).still.length = u.length) :
    runPass symbols u = ⟨symbols, [], u⟩ := by
  induction u generalizing symbols with
  | nil => rfl
  | cons x rest ih =>
    obtain ⟨n, e⟩ := x
    rcases he : evaluate e symbols with _ | v
    · rw [runPass_cons_none he] at h ⊢
      simp only [List.length_cons, Nat.succ.injEq] at h
      rw [ih symbols h]
    · rw [runPass_cons_some he] at h
      have hlen := runPass_length ((n, v) :: symbols) rest
      simp only [List.length_cons] at h
      omega

theorem runPass_stall_fail (symbols : List (String × Int)) (u : List (String × String))
    (h : (runPass symbols u).still.length = u.length) :
    ∀ r ∈ u, evaluate r.2 symbols = none := by
  induction u generalizing symbols with
  | nil => intro r hr; cases hr
  | cons x rest ih =>
    obtain ⟨n, e⟩ := x
    intro r hr
    rcases he : evaluate e symbols with _ | v
    · rw [runPass_cons_none he] at h
      simp only [List.length_cons, Nat.succ.injEq] at h
      rcases List.mem_cons.mp hr with rfl | hr'
      · exact he
      · exact ih symbols h r hr'
    · rw [runPass_cons_some he] at h
      have hlen := runPass_length ((n, v) :: symbols) rest
      simp only [List.length_cons] at h
      omega

/-! ### Equation lemmas for the loop -/

theorem runPass_still_le (symbols : List (String × Int)) (u : List (String × String)) :
    (runPass symbols u).still.length ≤ u.length := by
  have := runPass_length symbols u
  omega

theorem loopFuel_zero (syms : List (String × Int)) (u : List (String × String)) :
    resolveLoopFuel 0 syms u = ⟨syms, [], u, 0⟩ :=
  rfl

theorem loopFuel_succ_nil (fuel : Nat) (syms : List (String × Int)) :
    resolveLoopFuel (fuel + 1) syms [] = ⟨syms, [], [], 0⟩ :=
  rfl

theorem loopFuel_succ_stop {fuel : Nat} {syms : List (String × Int)} {u : List (String × String)}
    (hne : u ≠ []) (hstop : (runPass syms u).still.length = u.length) :
    resolveLoopFuel (fuel + 1) syms u =
      ⟨(runPass syms u).symbols, (runPass syms u).yielded, (runPass syms u).still, 1⟩ := by
  simp [resolveLoopFuel, hne, hstop]

theorem loopFuel_succ_step {fuel : Nat} {syms : List (String × Int)} {u : List (String × String)}
    (hne : u ≠ []) (hstep : (runPass syms u).still.length ≠ u.length) :
    resolveLoopFuel (fuel + 1) syms u =
      ⟨(resolveLoopFuel fuel (runPass syms u).symbols (runPass syms u).still).symbols,
       (runPass syms u).yielded ++
         (resolveLoopFuel fuel (runPass syms u).symbols (runPass syms u).still).output,
       (resolveLoopFuel fuel (runPass syms u).symbols (runPass syms u).still).errors,
       (resolveLoopFuel fuel (runPass syms u).symbols (runPass syms u).still).passes + 1⟩ := by
  simp [resolveLoopFuel, hne, hstep]

/-! ### Invariants of the loop -/

theorem loopFuel_symbols (fuel : Nat) :
    ∀ (syms : List (String × Int)) (u : List (String × String)),
      (resolveLoopFuel fuel syms u).symbols = (resolveLoopFuel fuel syms u).output.reverse ++ syms := by
  induction fuel with
  | zero => intro syms u; simp [loopFuel_zero]
  | succ f ih =>
    intro syms u
    by_cases hne : u = []
    · subst hne; simp [loopFuel_succ_nil]
    · by_cases hstop : (runPass syms u).still.length = u.length
      · rw [loopFuel_succ_stop hne hstop]
        exact runPass_symbols syms u
      · rw [loopFuel_succ_step hne hstop]
        simp only [ih, runPass_symbols, List.reverse_append, List.append_assoc]

theorem loopFuel_sound (fuel : Nat) :
    ∀ (syms : List (String × Int)) (u : List (String × String)) (i : Nat) (n : String) (v : Int),
      ((resolveLoopFuel fuel syms u).output)[i]? = some (n, v) →
      ∃ e, (n, e) ∈ u ∧
        evaluate e (((resolveLoopFuel fuel syms u).output.take i).reverse ++ syms) = some v := by
  induction fuel with
  | zero => intro syms u i n v h; simp [loopFuel_zero] at h
  | succ f ih =>
    intro syms u i n v h
    by_cases hne : u = []
    · subst hne; simp [loopFuel_succ_nil] at h
    · by_cases hstop : (runPass syms u).still.length = u.length
      · rw [loopFuel_succ_stop hne hstop] at h ⊢
        exact runPass_sound u syms i n v h
      · rw [loopFuel_succ_step hne hstop] at h ⊢
        dsimp only at h ⊢
        by_cases hi : i < (runPass syms u).yielded.length
        · rw [List.getElem?_append_left hi] at h
          obtain ⟨e, hmem, hev⟩ := runPass_sound u syms i n v h
          refine ⟨e, hmem, ?_⟩
          rw [List.take_append_eq_append_take,
            (by omega : i - (runPass syms u).yielded.length = 0), List.take_zero,
            List.append_nil]
          exact hev
        · push_neg at hi
          rw [List.getElem?_append_right hi] at h
          obtain ⟨e, hmem, hev⟩ :=
            ih (runPass syms u).symbols (runPass syms u).still (i - (runPass syms u).yielded.length) n v h
          refine ⟨e, runPass_still_subset syms u _ hmem, ?_⟩
          rw [List.take_append_eq_append_take, List.take_of_length_le hi, List.reverse_append,
            List.append_assoc, ← runPass_symbols]
          exact hev

theorem loopFuel_errors_subset (fuel : Nat) :
    ∀ (syms : List (String × Int)) (u : List (String × String)),
      ∀ r ∈ (resolveLoopFuel fuel syms u).errors, r ∈ u := by
  induction fuel with
  | zero => intro syms u r hr; simpa [loopFuel_zero] using hr
  | succ f ih =>
    intro syms u r hr
    by_cases hne : u = []
    · subst hne; simp [loopFuel_succ_nil] at hr
    · by_cases hstop : (runPass syms u).still.length = u.length
      · rw [loopFuel_succ_stop hne hstop] at hr
        exact runPass_still_subset syms u r hr
      · rw [loopFuel_succ_step hne hstop] at hr
        exact runPass_still_subset syms u r
          (ih (runPass syms u).symbols (runPass syms u).still r hr)

theorem loopFuel_errors_fail (fuel : Nat) :
    ∀ (syms : List (String × Int)) (u : List (String × String)), u.length < fuel →
      ∀ r ∈ (resolveLoopFuel fuel syms u).errors,
        evaluate r.2 (resolveLoopFuel fuel syms u).symbols = none := by
  induction fuel with
  | zero => intro syms u h; omega
  | succ f ih =>
    intro syms u hfuel r hr
    by_cases hne : u = []
    · subst hne; simp [loopFuel_succ_nil] at hr
    · by_cases hstop : (runPass syms u).still.length = u.length
      · rw [loopFuel_succ_stop hne hstop] at hr ⊢
        rw [runPass_stall syms u hstop] at hr ⊢
        exact runPass_stall_fail syms u hstop r hr
      · rw [loopFuel_succ_step hne hstop] at hr ⊢
        have hlt : (runPass syms u).still.length < u.length :=
          Nat.lt_of_le_of_ne (runPass_still_le syms u) hstop
        exact ih (runPass syms u).symbols (runPass syms u).still (by omega) r hr

theorem loopFuel_perm (fuel : Nat) :
    ∀ (syms : List (String × Int)) (u : List (String × String)),
      ((resolveLoopFuel fuel syms u).output.map Prod.fst ++
        (resolveLoopFuel fuel syms u).errors.map Prod.fst).Perm (u.map Prod.fst) := by
  induction fuel with
  | zero => intro syms u; simp [loopFuel_zero]
  | succ f ih =>
    intro syms u
    by_cases hne : u = []
    · subst hne; simp [loopFuel_succ_nil]
    · by_cases hstop : (runPass syms u).still.length = u.length
      · rw [loopFuel_succ_stop hne hstop]
        exact runPass_perm syms u
      · rw [loopFuel_succ_step hne hstop]
        simp only [List.map_append, List.append_assoc]
        exact List.Perm.trans
          (List.Perm.append_left _ (ih (runPass syms u).symbols (runPass syms u).still))
          (runPass_perm syms u)

theorem loopFuel_passes (fuel : Nat) :
    ∀ (syms : List (String × Int)) (u : List (String × String)),
      (resolveLoopFuel fuel syms u).passes ≤ u.length + 1 := by
  induction fuel with
  | zero => intro syms u; simp [loopFuel_zero]
  | succ f ih =>
    intro syms u
    by_cases hne : u = []
    · subst hne; simp [loopFuel_succ_nil]
    · by_cases hstop : (runPass syms u).still.length = u.length
      · rw [loopFuel_succ_stop hne hstop]
        have : 1 ≤ u.length + 1 := by omega
        exact this
      · rw [loopFuel_succ_step hne hstop]
        have hlt : (runPass syms u).still.length < u.length :=
          Nat.lt_of_le_of_ne (runPass_still_le syms u) hstop
        have := ih (runPass syms u).symbols (runPass syms u).still
        simp only at this ⊢
        omega

theorem loopFuel_stable (f : Nat) :
    ∀ (g : Nat) (syms : List (String × Int)) (u : List (String × String)),
      u.length < f → u.length < g →
      resolveLoopFuel f syms u = resolveLoopFuel g syms u := by
  induction f with
  | zero => intro g syms u hf; omega
  | succ f ih =>
    intro g syms u hf hg
    cases g with
    | zero => omega
    | succ g =>
      by_cases hne : u = []
      · subst hne; rw [loopFuel_succ_nil, loopFuel_succ_nil]
      · by_cases hstop : (runPass syms u).still.length = u.length
        · rw [loopFuel_succ_stop hne hstop, loopFuel_succ_stop hne hstop]
        · have hlt : (runPass syms u).still.length < u.length :=
            Nat.lt_of_le_of_ne (runPass_still_le syms u) hstop
          rw [loopFuel_succ_step hne hstop, loopFuel_succ_step hne hstop,
            ih g (runPass syms u).symbols (runPass syms u).still (by omega) (by omega)]

theorem loopFuel_stop_spec (fuel : Nat) :
    ∀ (syms : List (String × Int)) (u : List (String × String)), u.length < fuel →
      (resolveLoopFuel fuel syms u).errors = [] ∨
        runPass (resolveLoopFuel fuel syms u).symbols (resolveLoopFuel fuel syms u).errors =
          ⟨(resolveLoopFuel fuel syms u).symbols, [], (resolveLoopFuel fuel syms u).errors⟩ := by
  induction fuel with
  | zero => intro syms u h; omega
  | succ f ih =>
    intro syms u hfuel
    by_cases hne : u = []
    · subst hne; left; rw [loopFuel_succ_nil]
    · by_cases hstop : (runPass syms u).still.length = u.length
      · right
        rw [loopFuel_succ_stop hne hstop, runPass_stall syms u hstop]
        exact runPass_stall syms u hstop
      · rw [loopFuel_succ_step hne hstop]
        have hlt : (runPass syms u).still.length < u.length :=
          Nat.lt_of_le_of_ne (runPass_still_le syms u) hstop
        exact ih (runPass syms u).symbols (runPass syms u).still (by omega)

/-! ### Consulted symbols of a successful evaluation -/

theorem evaluate_operand_consulted (o : List Char) (symbols : List (String × Int)) (v : Int)
    (h : evaluate_operand (String.mk o) symbols = some v) :
    ∀ d ∈ operandConsulted o, (List.lookup d symbols).isSome := by
  intro d hd
  by_cases hn : isNumberTok (pyStrip o) = true
  · simp [operandConsulted, hn] at hd
  · simp only [operandConsulted, hn, if_neg, Bool.not_eq_true, List.mem_singleton] at hd
    subst hd
    simp only [evaluate_operand, hn, Bool.not_eq_true, if_neg] at h
    simp [h]

theorem evaluate_consulted (expr : String) (symbols : List (String × Int)) (v : Int)
    (h : evaluate expr symbols = some v) :
    ∀ d ∈ consulted expr symbols, (List.lookup d symbols).isSome := by
  intro d hd
  by_cases hn : isNumberTok (normalizeExpr expr) = true
  · simp [consulted, hn] at hd
  · rcases hl : List.lookup (String.mk (normalizeExpr expr)) symbols with _ | w
    · rcases hp : matchParen '+' '-' (normalizeExpr expr) with _ | ⟨lft, rgt⟩
      · rcases hm : matchParen '-' '+' (normalizeExpr expr) with _ | ⟨lft, rgt⟩
        · simp [consulted, hn, hl, hp, hm] at hd
        · simp only [consulted, hn, Bool.not_eq_true, if_neg, hl, hp, hm] at hd
          simp only [evaluate, hn, Bool.not_eq_true, if_neg, hl, hp, hm] at h
          rcases ha : evaluate_operand (String.mk lft) symbols with _ | a
          · rw [ha] at h; simp at h
          · rcases hb : evaluate_operand (String.mk rgt) symbols with _ | b
            · rw [ha, hb] at h; simp at h
            · rcases List.mem_append.mp hd with hd' | hd'
              · exact evaluate_operand_consulted lft symbols a ha d hd'
              · exact evaluate_operand_consulted rgt symbols b hb d hd'
      · simp only [consulted, hn, Bool.not_eq_true, if_neg, hl, hp] at hd
        simp only [evaluate, hn, Bool.not_eq_true, if_neg, hl, hp] at h
        rcases ha : evaluate_operand (String.mk lft) symbols with _ | a
        · rw [ha] at h; simp at h
        · rcases hb : evaluate_operand (String.mk rgt) symbols with _ | b
          · rw [ha, hb] at h; simp at h
          · rcases List.mem_append.mp hd with hd' | hd'
            · exact evaluate_operand_consulted lft symbols a ha d hd'
            · exact evaluate_operand_consulted rgt symbols b hb d hd'
    · simp only [consulted, hn, Bool.not_eq_true, if_neg, hl, List.mem_singleton] at hd
      subst hd
      simp [hl]

/-! ### Claim theorems -/

/-- Claim C1: every pair yielded by `resolve_dependencies` comes from an input
record whose expression evaluates successfully against exactly the table of
the previously yielded pairs, and every symbol that evaluation consults is
among the previously yielded names (so, inductively, every constant the
record's expression transitively depends on was yielded first); every record
that never resolves is reported on the error channel (it is never part of the
output: yielded names plus reported names are a permutation of the input
names) and its expression still fails against the final symbol table. -/
theorem resolve_dependencies_emits_after_deps (defines : List (String × String)) :
    (∀ (i : Nat) (n : String) (v : Int),
        ((resolve_dependencies defines).output)[i]? = some (n, v) →
        ∃ e, (n, e) ∈ defines ∧
          evaluate e (((resolve_dependencies defines).output.take i).reverse) = some v ∧
          ∀ d ∈ consulted e (((resolve_dependencies defines).output.take i).reverse),
            d ∈ ((resolve_dependencies defines).output.take i).map Prod.fst)
    ∧ (∀ r ∈ (resolve_dependencies defines).errors,
        r ∈ defines ∧ evaluate r.2 (resolve_dependencies defines).symbols = none)
    ∧ ((resolve_dependencies defines).output.map Prod.fst ++
        (resolve_dependencies defines).errors.map Prod.fst).Perm (defines.map Prod.fst) := by
  refine ⟨?_, ?_, ?_⟩
  · intro i n v h
    simp only [resolve_dependencies] at h ⊢
    obtain ⟨e, hmem, hev⟩ := loopFuel_sound (defines.length + 1) [] defines i n v h
    rw [List.append_nil] at hev
    refine ⟨e, hmem, hev, ?_⟩
    intro d hd
    have hs := evaluate_consulted e _ v (by simpa using hev) d hd
    rw [lookup_isSome_mem] at hs
    simpa [List.map_reverse, List.mem_reverse] using hs
  · intro r hr
    simp only [resolve_dependencies] at hr ⊢
    exact ⟨loopFuel_errors_subset (defines.length + 1) [] defines r hr,
      loopFuel_errors_fail (defines.length + 1) [] defines (by omega) r hr⟩
  · simp only [resolve_dependencies]
    exact loopFuel_perm (defines.length + 1) [] defines

/-- Witness for C1: on input `A = 0x10`, `B = (A + 1)`, the pair `(B, 17)` is
yielded at position 1, its expression evaluates under the one-entry table
built from the earlier yield, and the only consulted symbol `A` was yielded
earlier. -/
theorem resolve_dependencies_emits_after_deps_witness :
    ∃ e, ("B", e) ∈ [("A", "0x10"), ("B", "(A + 1)")] ∧
      evaluate e (((resolve_dependencies [("A", "0x10"), ("B", "(A + 1)")]).output.take 1).reverse) =
        some 17 ∧
      ∀ d ∈ consulted e (((resolve_dependencies [("A", "0x10"), ("B", "(A + 1)")]).output.take 1).reverse),
        d ∈ ((resolve_dependencies [("A", "0x10"), ("B", "(A + 1)")]).output.take 1).map Prod.fst :=
  (resolve_dependencies_emits_after_deps [("A", "0x10"), ("B", "(A + 1)")]).1 1 "B" 17 (by decide)

/-! ### Literal parsing facts (claim C2) -/

theorem hex_no_space (c : Char) (h : isHexDigit c = true) : isPySpace c = false := by
  by_contra hsp
  rw [Bool.not_eq_false] at hsp
  simp only [isPySpace, Bool.or_eq_true, beq_iff_eq] at hsp
  rcases hsp with (((((rfl | rfl) | rfl) | rfl) | rfl) | rfl) <;> exact absurd h (by decide)

theorem digit_no_space (c : Char) (h : Char.isDigit c = true) : isPySpace c = false := by
  by_contra hsp
  rw [Bool.not_eq_false] at hsp
  simp only [isPySpace, Bool.or_eq_true, beq_iff_eq] at hsp
  rcases hsp with (((((rfl | rfl) | rfl) | rfl) | rfl) | rfl) <;> exact absurd h (by decide)

theorem nows_pyStrip (l : List Char) (h : ∀ c ∈ l, isPySpace c = false) : pyStrip l = l := by
  have h1 : l.dropWhile isPySpace = l := by
    cases l with
    | nil => rfl
    | cons c t =>
      rw [List.dropWhile_cons, if_neg]
      simp [h c (List.mem_cons_self c t)]
  rw [pyStrip, h1]
  have h2 : l.reverse.dropWhile isPySpace = l.reverse := by
    cases hr : l.reverse with
    | nil => rfl
    | cons c t =>
      rw [List.dropWhile_cons, if_neg]
      have hc : c ∈ l := by
        rw [← List.mem_reverse, hr]
        exact List.mem_cons_self c t
      simp [h c hc]
  rw [h2, List.reverse_reverse]

theorem pyHexGo_all_hex (l : List Char) :
    ∀ acc : Nat, (∀ c ∈ l, isHexDigit c = true) →
      pyHexGo acc l = some (l.foldl (fun a c => 16 * a + hexCharVal c) acc) := by
  induction l with
  | nil => intro acc _; rfl
  | cons c t ih =>
    intro acc h
    have hc : isHexDigit c = true := h c (List.mem_cons_self c t)
    have hcne : ¬(c = '_') := by
      intro hEq
      subst hEq
      exact absurd hc (by decide)
    obtain ⟨d, hd⟩ := Option.isSome_iff_exists.mp hc
    have hval : hexCharVal c = d := by rw [hexCharVal, hd]; rfl
    rw [pyHexGo.eq_def]
    dsimp only
    rw [if_neg hcne, hd, List.foldl_cons]
    simp only [hval]
    exact ih (16 * acc + d) (fun x hx => h x (List.mem_cons_of_mem _ hx))

theorem digits_no_hex_pre (pre : Char) (l : List Char)
    (hpre : Char.isDigit pre = false)
    (h : ∀ c ∈ l, Char.isDigit c = true) :
    List.isPrefixOf ['0', pre] l = false := by
  cases l with
  | nil => rfl
  | cons c1 t1 =>
    cases t1 with
    | nil => simp [List.isPrefixOf]
    | cons c2 t2 =>
      by_contra hcon
      rw [Bool.not_eq_false] at hcon
      simp only [List.isPrefixOf, Bool.and_eq_true, beq_iff_eq] at hcon
      obtain ⟨-, hc2, -⟩ := hcon
      have hx : Char.isDigit c2 = true := h c2 (by simp)
      rw [← hc2] at hx
      exact absurd hx (by simp [hpre])

theorem evaluate_of_numberTok (s : String) (tbl : List (String × Int))
    (h : isNumberTok (normalizeExpr s) = true) :
    evaluate s tbl = parse_c_value (String.mk (normalizeExpr s)) := by
  simp only [evaluate, h]
  simp

/-- Claim C2 counterexample: the literal regex of `evaluate` only accepts a
lowercase `0x` prefix, so `0X10` is not treated as a hex literal: with an
empty symbol table it fails instead of evaluating to 16. -/
theorem evaluate_uppercase_hex_not_literal :
    evaluate "0X10" [] = none ∧ ¬(evaluate "0X10" [] = some 16) := by
  constructor
  · decide
  · decide

/-- Claim C2 (amended): for every string whose whitespace-normal form is a
lowercase `0x` followed by hex digits, `evaluate` returns the base-16 value of
those digits regardless of the symbol table, and for every string whose
normal form is a nonempty run of decimal digits it returns the base-10 value;
`0X`-prefixed strings are not covered (see the counterexample). -/
theorem evaluate_literal_values (s : String) (tbl : List (String × Int)) :
    (∀ ds : List Char, normalizeExpr s = '0' :: 'x' :: ds → ds ≠ [] →
        (∀ c ∈ ds, isHexDigit c = true) →
        evaluate s tbl = some (Int.ofNat (hexDigitsVal ds)))
    ∧ (normalizeExpr s ≠ [] →
        (∀ c ∈ normalizeExpr s, Char.isDigit c = true) →
        evaluate s tbl = some (Int.ofNat (decVal (normalizeExpr s)))) := by
  constructor
  · intro ds hds hne hhex
    have hmatch : isNumberTok ('0' :: 'x' :: ds) =
        (((!ds.isEmpty) && ds.all isHexDigit)
          || ((!('0' :: 'x' :: ds).isEmpty) && ('0' :: 'x' :: ds).all Char.isDigit)) := rfl
    have hnum : isNumberTok (normalizeExpr s) = true := by
      rw [hds, hmatch]
      have h1 : (!ds.isEmpty) = true := by simp [hne]
      have h2 : ds.all isHexDigit = true := List.all_eq_true.mpr hhex
      rw [h1, h2]
      rfl
    rw [evaluate_of_numberTok s tbl hnum, hds]
    have hnows : ∀ c ∈ '0' :: 'x' :: ds, isPySpace c = false := by
      intro c hc
      rcases List.mem_cons.mp hc with rfl | hc'
      · decide
      · rcases List.mem_cons.mp hc' with rfl | hc''
        · decide
        · exact hex_no_space c (hhex c hc'')
    have hpre : List.isPrefixOf ['0', 'x'] ('0' :: 'x' :: ds) = true := by
      simp [List.isPrefixOf]
    simp only [parse_c_value]
    rw [nows_pyStrip _ hnows, hpre, Bool.true_or, if_pos rfl,
      show ('0' :: 'x' :: ds).drop 2 = ds from rfl]
    have hemp : ds.isEmpty = false := by simp [hne]
    simp only [pyIntHex, hemp, Bool.false_eq_true, if_false]
    rw [pyHexGo_all_hex ds 0 hhex]
    rfl
  · intro hne hdig
    have hd2 : ((!(normalizeExpr s).isEmpty) && (normalizeExpr s).all Char.isDigit) = true := by
      have h1 : (!(normalizeExpr s).isEmpty) = true := by simp [hne]
      have h2 : (normalizeExpr s).all Char.isDigit = true := List.all_eq_true.mpr hdig
      rw [h1, h2]
      rfl
    have hnum : isNumberTok (normalizeExpr s) = true := by
      unfold isNumberTok
      rw [hd2, Bool.or_true]
    rw [evaluate_of_numberTok s tbl hnum]
    have hnows : ∀ c ∈ normalizeExpr s, isPySpace c = false := fun c hc =>
      digit_no_space c (hdig c hc)
    have hpx : List.isPrefixOf ['0', 'x'] (normalizeExpr s) = false :=
      digits_no_hex_pre 'x' _ (by decide) hdig
    have hpX : List.isPrefixOf ['0', 'X'] (normalizeExpr s) = false :=
      digits_no_hex_pre 'X' _ (by decide) hdig
    simp only [parse_c_value]
    rw [nows_pyStrip _ hnows, hpx, hpX, Bool.or_self, if_neg (by simp), hd2, if_pos rfl]

/-- Witness for C2 (amended): `0x10` and `16` both evaluate to 16 under the
empty symbol table. -/
theorem evaluate_literal_values_witness :
    evaluate "0x10" [] = some 16 ∧ evaluate "16" [] = some 16 := by
  constructor
  · have h := (evaluate_literal_values "0x10" []).1 ['1', '0'] (by decide) (by decide) (by decide)
    rw [h]
    decide
  · have h := (evaluate_literal_values "16" []).2 (by decide) (by decide)
    rw [h]
    decide

/-- Claim C3: with the records `A = 0x10`, `B = (A + 0x5)`, `C = (B - A)` in
each of the six input orders, resolution terminates with all three records
emitted (no errors, yielded names a permutation of A, B, C) and the final
symbol table maps A to 16, B to 21 and C to 5. -/
theorem resolve_abc_all_orders :
    ((resolve_dependencies [("A", "0x10"), ("B", "(A + 0x5)"), ("C", "(B - A)")]).errors = [] ∧
      ((resolve_dependencies [("A", "0x10"), ("B", "(A + 0x5)"), ("C", "(B - A)")]).output.map Prod.fst).Perm ["A", "B", "C"] ∧
      List.lookup "A" (resolve_dependencies [("A", "0x10"), ("B", "(A + 0x5)"), ("C", "(B - A)")]).symbols = some 16 ∧
      List.lookup "B" (resolve_dependencies [("A", "0x10"), ("B", "(A + 0x5)"), ("C", "(B - A)")]).symbols = some 21 ∧
      List.lookup "C" (resolve_dependencies [("A", "0x10"), ("B", "(A + 0x5)"), ("C", "(B - A)")]).symbols = some 5)
    ∧ ((resolve_dependencies [("A", "0x10"), ("C", "(B - A)"), ("B", "(A + 0x5)")]).errors = [] ∧
      ((resolve_dependencies [("A", "0x10"), ("C", "(B - A)"), ("B", "(A + 0x5)")]).output.map Prod.fst).Perm ["A", "B", "C"] ∧
      List.lookup "A" (resolve_dependencies [("A", "0x10"), ("C", "(B - A)"), ("B", "(A + 0x5)")]).symbols = some 16 ∧
      List.lookup "B" (resolve_dependencies [("A", "0x10"), ("C", "(B - A)"), ("B", "(A + 0x5)")]).symbols = some 21 ∧
      List.lookup "C" (resolve_dependencies [("A", "0x10"), ("C", "(B - A)"), ("B", "(A + 0x5)")]).symbols = some 5)
    ∧ ((resolve_dependencies [("B", "(A + 0x5)"), ("A", "0x10"), ("C", "(B - A)")]).errors = [] ∧
      ((resolve_dependencies [("B", "(A + 0x5)"), ("A", "0x10"), ("C", "(B - A)")]).output.map Prod.fst).Perm ["A", "B", "C"] ∧
      List.lookup "A" (resolve_dependencies [("B", "(A + 0x5)"), ("A", "0x10"), ("C", "(B - A)")]).symbols = some 16 ∧
      List.lookup "B" (resolve_dependencies [("B", "(A + 0x5)"), ("A", "0x10"), ("C", "(B - A)")]).symbols = some 21 ∧
      List.lookup "C" (resolve_dependencies [("B", "(A + 0x5)"), ("A", "0x10"), ("C", "(B - A)")]).symbols = some 5)
    ∧ ((resolve_dependencies [("B", "(A + 0x5)"), ("C", "(B - A)"), ("A", "0x10")]).errors = [] ∧
      ((resolve_dependencies [("B", "(A + 0x5)"), ("C", "(B - A)"), ("A", "0x10")]).output.map Prod.fst).Perm ["A", "B", "C"] ∧
      List.lookup "A" (resolve_dependencies [("B", "(A + 0x5)"), ("C", "(B - A)"), ("A", "0x10")]).symbols = some 16 ∧
      List.lookup "B" (resolve_dependencies [("B", "(A + 0x5)"), ("C", "(B - A)"), ("A", "0x10")]).symbols = some 21 ∧
      List.lookup "C" (resolve_dependencies [("B", "(A + 0x5)"), ("C", "(B - A)"), ("A", "0x10")]).symbols = some 5)
    ∧ ((resolve_dependencies [("C", "(B - A)"), ("A", "0x10"), ("B", "(A + 0x5)")]).errors = [] ∧
      ((resolve_dependencies [("C", "(B - A)"), ("A", "0x10"), ("B", "(A + 0x5)")]).output.map Prod.fst).Perm ["A", "B", "C"] ∧
      List.lookup "A" (resolve_dependencies [("C", "(B - A)"), ("A", "0x10"), ("B", "(A + 0x5)")]).symbols = some 16 ∧
      List.lookup "B" (resolve_dependencies [("C", "(B - A)"), ("A", "0x10"), ("B", "(A + 0x5)")]).symbols = some 21 ∧
      List.lookup "C" (resolve_dependencies [("C", "(B - A)"), ("A", "0x10"), ("B", "(A + 0x5)")]).symbols = some 5)
    ∧ ((resolve_dependencies [("C", "(B - A)"), ("B", "(A + 0x5)"), ("A", "0x10")]).errors = [] ∧
      ((resolve_dependencies [("C", "(B - A)"), ("B", "(A + 0x5)"), ("A", "0x10")]).output.map Prod.fst).Perm ["A", "B", "C"] ∧
      List.lookup "A" (resolve_dependencies [("C", "(B - A)"), ("B", "(A + 0x5)"), ("A", "0x10")]).symbols = some 16 ∧
      List.lookup "B" (resolve_dependencies [("C", "(B - A)"), ("B", "(A + 0x5)"), ("A", "0x10")]).symbols = some 21 ∧
      List.lookup "C" (resolve_dependencies [("C", "(B - A)"), ("B", "(A + 0x5)"), ("A", "0x10")]).symbols = some 5) := by
  decide

/-- Claim C4: on the mutually-circular pair `X = (Y + 1)`, `Y = (X + 1)`,
`resolve_dependencies` yields no output and both records are reported, in
order, as `Error: Could not resolve NAME = EXPRESSION` lines on the error
channel. -/
theorem resolve_circular_pair_reports_errors :
    (resolve_dependencies [("X", "(Y + 1)"), ("Y", "(X + 1)")]).output = [] ∧
    errorReport [("X", "(Y + 1)"), ("Y", "(X + 1)")] =
      ["Error: Could not resolve X = (Y + 1)", "Error: Could not resolve Y = (X + 1)"] := by
  constructor
  · decide
  · decide

/-- Claim C6 counterexample: with the duplicate-name input `A = 1`, `A = 2`
both records resolve in one pass; the table entry for `A` is first set to 1
(the table after one yield) and later holds 2 (after the second yield), so
"an entry, once set, is never overwritten" fails. -/
theorem symbol_table_overwrite_on_duplicate :
    (resolve_dependencies [("A", "1"), ("A", "2")]).output = [("A", 1), ("A", 2)] ∧
    List.lookup "A" (((resolve_dependencies [("A", "1"), ("A", "2")]).output.take 1).reverse) = some 1 ∧
    List.lookup "A" (((resolve_dependencies [("A", "1"), ("A", "2")]).output.take 2).reverse) = some 2 ∧
    ¬((resolve_dependencies [("A", "1"), ("A", "2")]).output.map Prod.fst).Nodup := by
  refine ⟨by decide, by decide, by decide, by decide⟩

/-- Claim C6 (amended): during a run the symbol table is exactly the
accumulated yields (most recent first), so it only grows: a name present in
the table after `i` yields is still present after `j ≥ i` yields and no
entry is ever removed; and every input record is consumed exactly once
(yields plus reported records account for the whole input, so a resolved
record is not re-evaluated).  However, when two records share a name the
later yield overwrites the earlier entry (see the counterexample), so
"never overwritten" only holds for distinct record names. -/
theorem symbol_table_monotone (defines : List (String × String)) :
    ((resolve_dependencies defines).symbols = (resolve_dependencies defines).output.reverse)
    ∧ (∀ (i j : Nat) (n : String) (v : Int), i ≤ j →
        List.lookup n (((resolve_dependencies defines).output.take i).reverse) = some v →
        ∃ w, List.lookup n (((resolve_dependencies defines).output.take j).reverse) = some w)
    ∧ (resolve_dependencies defines).output.length + (resolve_dependencies defines).errors.length
        = defines.length := by
  refine ⟨?_, ?_, ?_⟩
  · have := loopFuel_symbols (defines.length + 1) [] defines
    simpa [resolve_dependencies] using this
  · intro i j n v hij hv
    have hs : (List.lookup n (((resolve_dependencies defines).output.take i).reverse)).isSome := by
      rw [hv]; rfl
    rw [lookup_isSome_mem] at hs
    have h1 : n ∈ ((resolve_dependencies defines).output.take i).map Prod.fst := by
      simpa [List.map_reverse, List.mem_reverse] using hs
    have hsub : (resolve_dependencies defines).output.take i ⊆
        (resolve_dependencies defines).output.take j := by
      intro x hx
      rw [show (resolve_dependencies defines).output.take i
          = ((resolve_dependencies defines).output.take j).take i from by
        rw [List.take_take, Nat.min_eq_left hij]] at hx
      exact List.take_subset _ _ hx
    have h2 : n ∈ ((resolve_dependencies defines).output.take j).map Prod.fst :=
      List.map_subset Prod.fst hsub h1
    have : (List.lookup n (((resolve_dependencies defines).output.take j).reverse)).isSome := by
      rw [lookup_isSome_mem]
      simpa [List.map_reverse, List.mem_reverse] using h2
    exact Option.isSome_iff_exists.mp this
  · have := (loopFuel_perm (defines.length + 1) [] defines).length_eq
    simpa [resolve_dependencies] using this

/-- Witness for C6 (amended): on input `A = 1`, the entry for `A` present
after the first yield is still present afterwards. -/
theorem symbol_table_monotone_witness :
    ∃ w, List.lookup "A" (((resolve_dependencies [("A", "1")]).output.take 1).reverse) = some w :=
  (symbol_table_monotone [("A", "1")]).2.1 1 1 "A" 1 (by decide) (by decide)

/-- Claim C7: the fixed-point loop terminates: for `n` input records it runs
at most `n + 1` passes; giving the loop any extra fuel beyond that bound
changes nothing (the iteration has stabilized), and at termination either
the working set is empty or re-running a pass on the leftover records under
the final table resolves none of them — exactly the two stop conditions. -/
theorem resolve_loop_pass_bound_and_stop (defines : List (String × String)) :
    ((resolve_dependencies defines).passes ≤ defines.length + 1)
    ∧ (∀ extra : Nat,
        resolveLoopFuel (defines.length + 1 + extra) [] defines = resolve_dependencies defines)
    ∧ ((resolve_dependencies defines).errors = [] ∨
        runPass (resolve_dependencies defines).symbols (resolve_dependencies defines).errors =
          ⟨(resolve_dependencies defines).symbols, [], (resolve_dependencies defines).errors⟩) := by
  refine ⟨?_, ?_, ?_⟩
  · exact loopFuel_passes (defines.length + 1) [] defines
  · intro extra
    exact loopFuel_stable (defines.length + 1 + extra) (defines.length + 1) [] defines
      (by omega) (by omega)
  · exact loopFuel_stop_spec (defines.length + 1) [] defines (by omega)

/-- Claim C9: when no reported record carries the name `n`, the output holds
one pair per input record named `n` (a duplicated name is yielded once per
record, so the same name can appear twice), and the final symbol table maps
`n` to the value of the pair for `n` that was yielded last. -/
theorem duplicate_names_each_emitted (defines : List (String × String)) (n : String)
    (h : n ∉ (resolve_dependencies defines).errors.map Prod.fst) :
    List.count n ((resolve_dependencies defines).output.map Prod.fst)
        = List.count n (defines.map Prod.fst)
    ∧ List.lookup n (resolve_dependencies defines).symbols =
        (((resolve_dependencies defines).output.filter (fun p => p.1 == n)).getLast?).map
          Prod.snd := by
  constructor
  · have hperm := loopFuel_perm (defines.length + 1) [] defines
    have hcnt := hperm.count_eq n
    rw [List.count_append] at hcnt
    have hz : List.count n ((resolve_dependencies defines).errors.map Prod.fst) = 0 :=
      List.count_eq_zero.mpr h
    simp only [resolve_dependencies] at *
    omega
  · have hsym : (resolve_dependencies defines).symbols
        = (resolve_dependencies defines).output.reverse := by
      have := loopFuel_symbols (defines.length + 1) [] defines
      simpa [resolve_dependencies] using this
    rw [hsym]
    exact lookup_reverse_eq n _

/-- Witness for C9: on the duplicate input `A = 1`, `A = 2` the name `A` is
emitted once per record and the final table holds the later value. -/
theorem duplicate_names_each_emitted_witness :
    List.count "A" ((resolve_dependencies [("A", "1"), ("A", "2")]).output.map Prod.fst)
        = List.count "A" ([("A", "1"), ("A", "2")].map Prod.fst)
    ∧ List.lookup "A" (resolve_dependencies [("A", "1"), ("A", "2")]).symbols =
        (((resolve_dependencies [("A", "1"), ("A", "2")]).output.filter
            (fun p => p.1 == "A")).getLast?).map Prod.snd :=
  duplicate_names_each_emitted [("A", "1"), ("A", "2")] "A" (by decide)

/-- Claim C10: `evaluate` and `evaluate_operand` are embedded as pure
functions of the symbol table (they return a value and cannot modify it);
when a record's evaluation fails during a pass, that step leaves the table
and the yields of the pass exactly as they were and carries the record, with
the same name and raw expression, into the next working set; consequently
every reported record is an unchanged input record. -/
theorem failed_attempt_leaves_state :
    (∀ (symbols : List (String × Int)) (n e : String) (rest : List (String × String)),
        evaluate e symbols = none →
        runPass symbols ((n, e) :: rest) =
          ⟨(runPass symbols rest).symbols, (runPass symbols rest).yielded,
            (n, e) :: (runPass symbols rest).still⟩)
    ∧ ∀ (defines : List (String × String)) (r : String × String),
        r ∈ (resolve_dependencies defines).errors → r ∈ defines := by
  constructor
  · intro symbols n e rest h
    exact runPass_cons_none h
  · intro defines r hr
    exact loopFuel_errors_subset (defines.length + 1) [] defines r hr

/-- Witness for C10: the record `X = (Y + 1)` fails under the empty table and
is carried unchanged, leaving table and yields untouched. -/
theorem failed_attempt_leaves_state_witness :
    runPass [] [("X", "(Y + 1)")] =
      ⟨(runPass [] ([] : List (String × String))).symbols,
        (runPass [] ([] : List (String × String))).yielded,
        ("X", "(Y + 1)") :: (runPass [] ([] : List (String × String))).still⟩ :=
  (failed_attempt_leaves_state).1 [] "X" "(Y + 1)" [] (by decide)

theorem stringMk_eq_iff (l : List Char) (s : String) : String.mk l = s ↔ l = s.data := by
  constructor
  · intro h
    rw [← h]
  · intro h
    subst h
    rfl

theorem nameSelected_iff (n : List Char) :
    nameSelected n = true ↔
      (String.mk n = "THIRD_PARTY_EVENT_ID_MIN" ∨
        "EVT_".data <+: n ∨ "CDU_EVT_OFFSET_".data <+: n) := by
  simp only [nameSelected, Bool.or_eq_true, beq_iff_eq, isPrefixOf_true_iff, stringMk_eq_iff]
  tauto

/-- Claim C5: a line yields a define record exactly when, after stripping
surrounding whitespace, it starts with `#define`, splits on whitespace runs
into three parts (directive, name, remainder kept whole) and the name is the
sentinel `THIRD_PARTY_EVENT_ID_MIN` or starts with `EVT_` or
`CDU_EVT_OFFSET_`; all other lines are skipped, and extraction distributes
over concatenation of line lists, so records appear in input order. -/
theorem extract_line_iff :
    (∀ line : String,
        (∃ r, extractLine line = some r) ↔
          ("#define".data <+: pyStrip line.data ∧
            ∃ d n rest, pySplit2 (pyStrip line.data) = [d, n, rest] ∧
              (String.mk n = "THIRD_PARTY_EVENT_ID_MIN" ∨
                "EVT_".data <+: n ∨ "CDU_EVT_OFFSET_".data <+: n)))
    ∧ ∀ l1 l2 : List String,
        extract_defines_from_header (l1 ++ l2) =
          extract_defines_from_header l1 ++ extract_defines_from_header l2 := by
  constructor
  · intro line
    constructor
    · rintro ⟨r, hr⟩
      simp only [extractLine] at hr
      by_cases hpre : List.isPrefixOf "#define".data (pyStrip line.data) = true
      · rw [if_pos hpre] at hr
        refine ⟨(isPrefixOf_true_iff _ _).mp hpre, ?_⟩
        rcases hsp : pySplit2 (pyStrip line.data) with _ | ⟨a, _ | ⟨b, _ | ⟨c, _ | ⟨e, tl⟩⟩⟩⟩ <;>
          rw [hsp] at hr
        · simp at hr
        · simp at hr
        · simp at hr
        · by_cases hsel : nameSelected b = true
          · exact ⟨a, b, c, rfl, (nameSelected_iff b).mp hsel⟩
          · simp [hsel] at hr
        · simp at hr
      · rw [if_neg hpre] at hr
        cases hr
    · rintro ⟨hpre, d, n, rest, hsp, hname⟩
      refine ⟨(String.mk n, String.mk (pyStrip (stripComment rest))), ?_⟩
      simp only [extractLine]
      rw [if_pos ((isPrefixOf_true_iff _ _).mpr hpre), hsp]
      dsimp only
      rw [if_pos ((nameSelected_iff n).mpr hname)]
  · intro l1 l2
    simp [extract_defines_from_header]

/-- Witness for C5: the line `#define EVT_A 1` satisfies the selection
conditions and indeed yields a record. -/
theorem extract_line_iff_witness :
    ∃ r, extractLine "#define EVT_A 1" = some r :=
  (extract_line_iff.1 "#define EVT_A 1").mpr
    ⟨by decide, "#define".data, "EVT_A".data, "1".data, by decide,
      Or.inr (Or.inl (by decide))⟩

theorem stripComment_head (l : List Char) (c : Char) (t : List Char)
    (h : stripComment l = c :: t) : l.head? = some c := by
  cases l with
  | nil => simp [stripComment] at h
  | cons a rest =>
    by_cases ha : a = '/' ∧ rest.head? = some '/'
    · simp [stripComment, ha] at h
    · simp only [stripComment, if_neg ha] at h
      injection h with h1 h2
      rw [List.head?_cons, h1]

/-- Claim C8: `stripComment` removes exactly the suffix starting at the first
`//` (the kept part is a prefix of the remainder, the dropped part is empty
or starts with `//`, and no `//` survives in the kept part); the extractor
stores the comment-stripped, whitespace-trimmed remainder as the raw
expression, and on `#define EVT_X 0x100 // foo` it yields `(EVT_X, 0x100)`. -/
theorem comment_stripped_before_store :
    (∀ l : List Char,
        ∃ dropped, l = stripComment l ++ dropped ∧
          (dropped = [] ∨ ∃ t, dropped = '/' :: '/' :: t) ∧
          ¬∃ a b, stripComment l = a ++ '/' :: '/' :: b)
    ∧ (∀ (line : String) (d n rest : List Char),
        pySplit2 (pyStrip line.data) = [d, n, rest] →
        List.isPrefixOf "#define".data (pyStrip line.data) = true →
        nameSelected n = true →
        extractLine line = some (String.mk n, String.mk (pyStrip (stripComment rest))))
    ∧ extractLine "#define EVT_X 0x100 // foo" = some ("EVT_X", "0x100") := by
  refine ⟨?_, ?_, by decide⟩
  · intro l
    induction l with
    | nil =>
      refine ⟨[], rfl, Or.inl rfl, ?_⟩
      rintro ⟨a, b, hab⟩
      simp [stripComment] at hab
    | cons c rest ih =>
      by_cases hc : c = '/' ∧ rest.head? = some '/'
      · refine ⟨c :: rest, ?_, ?_, ?_⟩
        · simp [stripComment, hc]
        · right
          obtain ⟨rfl, hc2⟩ := hc
          cases rest with
          | nil => simp at hc2
          | cons r t =>
            rw [List.head?_cons, Option.some.injEq] at hc2
            exact ⟨t, by rw [hc2]⟩
        · simp [stripComment, hc]
      · obtain ⟨dr, hdr, hor, hno⟩ := ih
        refine ⟨dr, ?_, hor, ?_⟩
        · simp only [stripComment, if_neg hc, List.cons_append]
          exact congrArg (c :: ·) hdr
        · rintro ⟨a, b, hab⟩
          simp only [stripComment, if_neg hc] at hab
          cases a with
          | nil =>
            simp only [List.nil_append] at hab
            injection hab with h1 h2
            exact hc ⟨h1, stripComment_head rest '/' b h2⟩
          | cons a0 as =>
            simp only [List.cons_append] at hab
            injection hab with h1 h2
            exact hno ⟨as, b, h2⟩
  · intro line d n rest hsp hpre hsel
    simp only [extractLine]
    rw [if_pos hpre, hsp]
    dsimp only
    rw [if_pos hsel]

/-- Witness for C8: on the example line, the stored expression is exactly the
stripped, comment-stripped remainder. -/
theorem comment_stripped_before_store_witness :
    extractLine "#define EVT_X 0x100 // foo" =
      some (String.mk "EVT_X".data, String.mk (pyStrip (stripComment "0x100 // foo".data))) :=
  comment_stripped_before_store.2.1 "#define EVT_X 0x100 // foo"
    "#define".data "EVT_X".data "0x100 // foo".data (by decide) (by decide) (by decide)

end CleanupPy
